import Mathlib

/-!
Verification development for the `streaks` command-line habit tracker
(`src/main.rs`).  The Rust source is shallowly embedded:

* `lev` / `close_match` (fuzzy name matching) work on the UTF-8 byte
  sequence of a `&str`, modelled as `List Nat`; the possible panic of the
  byte slicing `&a[1..]` on a multi-byte character boundary is modelled by
  an `Option` result (`none` = panic).  A fuel argument makes the
  recursion structural; `lev` supplies enough fuel for every input.
* `Streak`, `StreakState`, `Streak::hit`, `Streak::update_count`,
  `Streak::new` and the per-streak body of `State::update` are translated
  directly.  The injected clock (`Local::now()`) becomes an explicit
  integer timestamp parameter.  The `chrono` function `num_days_from_ce` (an external
  crate function) is abstracted as the day index `t / 86400` of the
  integer timestamp; the reconciliation claims use only that it is a pure
  function of the timestamp.
* `State` (a `HashMap<String, Streak>`) is modelled as an association
  list with unique keys; `HashMap::insert` becomes `insertReplace`.
  The stderr messages of the CLI are not modelled, except for the
  "corrupted time state" warning of `State::update`, which is returned as
  a `Bool` flag by `Streak.advance`.
* Serialization: names and the persisted text are `List Char`;
  `u32` rendering/parsing is modelled by an exact decimal codec, and
  the `chrono` `DateTime<Local>` `Display`/`FromStr` pair (external crate
  code whose output contains no comma and no newline and which
  round-trips to the serialized precision) is modelled by an exact
  decimal codec on the integer timestamp.
-/

namespace Streaks

/-! ### Fuzzy matching: `lev` and `close_match` (src/main.rs lines 12-28) -/

/-- One step of `fn lev(a: &str, b: &str)` on UTF-8 byte sequences.
`fuel` makes the recursion structural; `none` models the panic of the
byte slice `&a[1..]` when the first character of a nonempty operand is
multi-byte (its leading byte is `>= 0x80`, so byte index 1 is not a char
boundary).  Both operands nonempty with ASCII first bytes: the source
compares first characters (equal iff the bytes are equal) and recurses on
the byte tails exactly as below. -/
def levAux : Nat → List Nat → List Nat → Option Nat
  | _, a, [] => some a.length
  | _, [], _ :: bs => some (bs.length + 1)
  | 0, _ :: _, _ :: _ => none
  | fuel' + 1, x :: as_, y :: bs =>
    if 128 ≤ x ∨ 128 ≤ y then none
    else if x = y then levAux fuel' as_ bs
    else do
      let d1 ← levAux fuel' as_ (y :: bs)
      let d2 ← levAux fuel' (x :: as_) bs
      let d3 ← levAux fuel' as_ bs
      some (1 + min (min d1 d2) d3)

/-- Model of `fn lev(a: &str, b: &str) -> usize` on the byte sequences of its
arguments; `none` models a panic. -/
def lev (a b : List Nat) : Option Nat :=
  levAux (a.length + b.length) a b

/-- Reference definition: one step of the textbook Levenshtein distance
(unit-cost insertion, deletion, substitution), fuelled to keep the
recursion structural. -/
def levRefAux : Nat → List Nat → List Nat → Nat
  | _, a, [] => a.length
  | _, [], _ :: bs => bs.length + 1
  | 0, _ :: _, _ :: _ => 0
  | fuel' + 1, x :: as_, y :: bs =>
    min (1 + levRefAux fuel' as_ (y :: bs))
      (min (1 + levRefAux fuel' (x :: as_) bs)
        ((if x = y then 0 else 1) + levRefAux fuel' as_ bs))

/-- The textbook Levenshtein distance between two sequences. -/
def levRef (a b : List Nat) : Nat :=
  levRefAux (a.length + b.length) a b

/-- Model of `fn close_match(a: &str, b: &str) -> bool`:
`lev(a, b) <= usize::min(usize::min(a.len(), b.len()) / 2, 3)`;
`none` models a panic propagated from `lev`. -/
def close_match (a b : List Nat) : Option Bool :=
  (lev a b).map (fun d => decide (d ≤ min (min a.length b.length / 2) 3))

/-- A byte sequence is ASCII when every byte is below `0x80`. -/
def allAscii (l : List Nat) : Prop := ∀ x ∈ l, x < 128

instance (l : List Nat) : Decidable (allAscii l) := by
  unfold allAscii; infer_instance

/-- Model of `self.streaks.keys().find(|n| close_match(n, name))` over a given
iteration order of the `HashMap` keys (the order is not specified by the
map).  The outer `none` models a panic raised by `close_match` before a
match is found. -/
def findClose : List (List Nat) → List Nat → Option (Option (List Nat))
  | [], _ => some none
  | k :: ks, q =>
    match close_match k q with
    | none => none
    | some true => some (some k)
    | some false => findClose ks q

/-! ### The streak state machine (src/main.rs lines 51-124, 173-193) -/

/-- Model of `enum StreakState`. -/
inductive StreakState where
  | Done
  | Pending
  | Expired
  | New
deriving DecidableEq

/-- Model of `struct Streak`; `last_hit: DateTime<Local>` is modelled as an
integer timestamp. -/
structure Streak where
  current_count : Nat
  max_count : Nat
  last_hit : Int
  state : StreakState
deriving DecidableEq

/-- Model of `Streak::new`, with the injected clock value for `Local::now()`. -/
def Streak.new (now : Int) : Streak :=
  { current_count := 0, max_count := 0, last_hit := now, state := .New }

/-- Model of `Streak::update_count`: apply `action` to `current_count`, then
`max_count = max_count.max(current_count)`. -/
def Streak.update_count (s : Streak) (action : Nat → Nat) : Streak :=
  let c := action s.current_count
  { s with current_count := c, max_count := max s.max_count c }

/-- Model of `Streak::hit`, with the injected clock value for `Local::now()`.
Returns the `Option<u32>` result together with the updated streak; the
stderr messages (including the disambiguator) are not modelled. -/
def Streak.hit (s : Streak) (now : Int) : Option Nat × Streak :=
  match s.state with
  | .Done => (none, s)
  | .Expired | .New =>
    let s' := Streak.update_count
      { s with state := .Done, last_hit := now } (fun _ => 1)
    (some s'.current_count, s')
  | .Pending =>
    let s' := Streak.update_count
      { s with state := .Done, last_hit := now } (fun old => old + 1)
    (some s'.current_count, s')

/-- Model of the `chrono` function `num_days_from_ce` on a `DateTime<Local>`, abstracted as
the day index of the integer timestamp.  The claims about reconciliation
depend only on this being a pure function of the timestamp. -/
def numDaysFromCE (t : Int) : Int := t / 86400

/-- The per-streak body of `State::update` (the `match days_between`
block), as a function of the day delta.  The `Bool` component is `true`
exactly when the `"corrupted time state"` warning is printed. -/
def Streak.advance (s : Streak) (days : Int) : Streak × Bool :=
  if days = 0 then (s, false)
  else if days = 1 then ({ s with state := .Pending }, false)
  else if 1 < days then
    (Streak.update_count { s with state := .Expired } (fun _ => 0), false)
  else
    (Streak.update_count { s with state := .Pending } (fun _ => 0), true)

/-- Model of `State.streaks`: the `HashMap<String, Streak>` as an association
list; well-formed states have pairwise-distinct names. -/
abbrev State := List (List Char × Streak)

/-- Model of `State::update`, with the injected clock value for `Local::now()`:
every streak advances by `now.num_days_from_ce() -
streak.last_hit.num_days_from_ce()` days. -/
def State.update (st : State) (now : Int) : State :=
  st.map (fun p =>
    (p.1, (p.2.advance (numDaysFromCE now - numDaysFromCE p.2.last_hit)).1))

/-- Lookup by name, as `HashMap::get`. -/
def lookupName (n : List Char) : State → Option Streak
  | [] => none
  | (m, s) :: rest => if m = n then some s else lookupName n rest

/-- Model of `HashMap::insert`: replace the binding if the key is present,
otherwise add it. -/
def insertReplace (st : State) (n : List Char) (s : Streak) : State :=
  match st with
  | [] => [(n, s)]
  | (m, t) :: rest =>
    if m = n then (m, s) :: rest else (m, t) :: insertReplace rest n s

/-! ### Serialization (src/main.rs lines 59-76, 126-156, 240-271) -/

/-- Model of `StreakState::serialize`. -/
def StreakState.serialize : StreakState → List Char
  | .Done => ['D', 'o', 'n', 'e']
  | .Pending => ['P', 'e', 'n', 'd', 'i', 'n', 'g']
  | .Expired => ['E', 'x', 'p', 'i', 'r', 'e', 'd']
  | .New => ['N', 'e', 'w']

/-- Model of `StreakState::deserialize` (errors collapse to `none`; the error
message text is not modelled). -/
def StreakState.deserialize (s : List Char) : Option StreakState :=
  if s = ['D', 'o', 'n', 'e'] then some .Done
  else if s = ['P', 'e', 'n', 'd', 'i', 'n', 'g'] then some .Pending
  else if s = ['E', 'x', 'p', 'i', 'r', 'e', 'd'] then some .Expired
  else if s = ['N', 'e', 'w'] then some .New
  else none

/-- The decimal digit character for `d < 10`. -/
def digitChar (d : Nat) : Char := Char.ofNat (48 + d)

/-- Decimal rendering of a natural number, fuelled to keep the recursion
structural (the `Display` impl of `u32`). -/
def natToCharsAux : Nat → Nat → List Char
  | 0, _ => []
  | fuel' + 1, n =>
    if n < 10 then [digitChar n]
    else natToCharsAux fuel' (n / 10) ++ [digitChar (n % 10)]

/-- Decimal rendering of a natural number. -/
def natToChars (n : Nat) : List Char := natToCharsAux (n + 1) n

/-- Is `c` one of the characters `0`-`9`? -/
def isDigitChar (c : Char) : Bool := 48 ≤ c.toNat && c.toNat ≤ 57

/-- Accumulate the value of a decimal digit string. -/
def readNat (cs : List Char) : Nat :=
  cs.foldl (fun a c => 10 * a + (c.toNat - 48)) 0

/-- Model of `str::parse::<u32>`: an optional leading `+`, then at least one
digit, rejecting values that overflow `u32`. -/
def parseU32 (cs : List Char) : Option Nat :=
  let ds := match cs with
    | c :: rest => if c = '+' then rest else cs
    | [] => cs
  if ds ≠ [] ∧ ds.all isDigitChar then
    if readNat ds < 2 ^ 32 then some (readNat ds) else none
  else none

/-- The serialized form of the `last_hit` timestamp.  Models `chrono`'s
`Display` for `DateTime<Local>` by an exact decimal rendering of the
integer timestamp: like the real format it contains no comma and no
newline, and it round-trips through `serializeTime`/`parseTime` to the
serialized precision. -/
def serializeTime (t : Int) : List Char :=
  if t < 0 then '-' :: natToChars t.natAbs else natToChars t.natAbs

/-- The inverse side of the timestamp model: `str::parse` for
`DateTime<Local>` (`none` = parse error). -/
def parseTime : List Char → Option Int
  | [] => none
  | c :: rest =>
    if c = '-' then
      if rest ≠ [] ∧ rest.all isDigitChar then some (-(readNat rest : Int))
      else none
    else
      if (c :: rest).all isDigitChar then some ((readNat (c :: rest) : Int))
      else none

/-- Model of `Streak::serialize`:
`format!("{},{},{},{}", current_count, max_count, last_hit, state)`. -/
def Streak.serialize (s : Streak) : List Char :=
  natToChars s.current_count ++
    (',' :: (natToChars s.max_count ++
      (',' :: (serializeTime s.last_hit ++
        (',' :: s.state.serialize)))))

/-- Model of `Streak::deserialize(values: &[&str])`: exactly four fields, parsed
as `current_count`, `max_count`, `last_hit`, `state`. -/
def Streak.deserialize (values : List (List Char)) : Option Streak :=
  match values with
  | [c, m, t, st] =>
    (parseU32 c).bind fun cc =>
      (parseU32 m).bind fun mc =>
        (parseTime t).bind fun lh =>
          (StreakState.deserialize st).map fun ss =>
            { current_count := cc, max_count := mc,
              last_hit := lh, state := ss }
  | _ => none

/-- Model of `str::split(sep)` on character lists (splitting an empty list yields
one empty piece, as in Rust). -/
def splitOnChar (sep : Char) : List Char → List (List Char)
  | [] => [[]]
  | c :: cs =>
    match splitOnChar sep cs with
    | [] => [[]]
    | r :: rs => if c = sep then [] :: r :: rs else (c :: r) :: rs

/-- Model of `Vec::join(sep)`, the `lines.join` of `State::serialize`. -/
def joinSep (sep : Char) : List (List Char) → List Char
  | [] => []
  | [l] => l
  | l :: ls => l ++ sep :: joinSep sep ls

/-- The trailing-carriage-return strip that `str::lines` applies to each
line. -/
def stripCR (l : List Char) : List Char :=
  if l.getLast? = some '\x0d' then l.dropLast else l

/-- Model of `str::lines`: split on `\n`, treat a final newline as a terminator
(no trailing empty line), strip one trailing `\r` per line; the empty
string has no lines. -/
def rustLines (text : List Char) : List (List Char) :=
  if text = [] then []
  else
    (if (splitOnChar '\n' text).getLast? = some [] then
      (splitOnChar '\n' text).dropLast
    else splitOnChar '\n' text).map stripCR

/-- Lexicographic comparison of names (the Rust `Ord` for `String`;
UTF-8 byte order coincides with scalar-value order). -/
def charListLe : List Char → List Char → Bool
  | [], _ => true
  | _ :: _, [] => false
  | a :: as_, b :: bs =>
    if a < b then true else if b < a then false else charListLe as_ bs

/-- Model of `self.streaks.iter().sorted_by_key(|pair| pair.0)` of
`State::serialize`. -/
def sortStreaks (st : State) : State :=
  List.insertionSort (fun p q => charListLe p.1 q.1 = true) st

/-- One serialized line: `format!("{},{}", name, streak.serialize())`. -/
def lineOf (p : List Char × Streak) : List Char :=
  p.1 ++ (',' :: p.2.serialize)

/-- Model of `State::serialize`: one line per streak, sorted by name, joined with
newlines. -/
def State.serialize (st : State) : List Char :=
  joinSep '\n' ((sortStreaks st).map lineOf)

/-- The line loop of `State::deserialize`: split each line on commas,
require at least a name and one further field, parse the rest as a
streak, insert under the name. -/
def deserializeLines : List (List Char) → State → Option State
  | [], acc => some acc
  | line :: rest, acc =>
    match splitOnChar ',' line with
    | [] => none
    | [_] => none
    | name :: v1 :: vs =>
      match Streak.deserialize (v1 :: vs) with
      | none => none
      | some s => deserializeLines rest (insertReplace acc name s)

/-- Model of `State::deserialize` (errors collapse to `none`). -/
def State.deserialize (text : List Char) : Option State :=
  deserializeLines (rustLines text) []

/-- Well-formedness that the Rust types and `HashMap` guarantee for any
in-memory store: pairwise-distinct names, and counts in `u32` range. -/
def State.WF (st : State) : Prop :=
  (st.map Prod.fst).Nodup ∧
    ∀ p ∈ st, p.2.current_count < 2 ^ 32 ∧ p.2.max_count < 2 ^ 32

instance (st : State) : Decidable (State.WF st) := by
  unfold State.WF; infer_instance

/-! ### Concrete inputs used by witnesses and counterexamples -/

/-- UTF-8 bytes of `"workout"`. -/
def workoutBytes : List Nat := [119, 111, 114, 107, 111, 117, 116]

/-- UTF-8 bytes of `"workuot"`. -/
def workuotBytes : List Nat := [119, 111, 114, 107, 117, 111, 116]

/-- UTF-8 bytes of `"ab"`. -/
def abBytes : List Nat := [97, 98]

/-- UTF-8 bytes of `"xy"`. -/
def xyBytes : List Nat := [120, 121]

/-- UTF-8 bytes of `"ac"`. -/
def acBytes : List Nat := [97, 99]

/-- UTF-8 bytes of `"ad"`. -/
def adBytes : List Nat := [97, 100]

/-- UTF-8 bytes of `"é"` (a two-byte character). -/
def eAcuteBytes : List Nat := [195, 169]

/-- UTF-8 bytes of `"a"`. -/
def aBytes : List Nat := [97]

/-- A well-formed two-streak store with comma-free, newline-free names
(`"gym"` and `"run"`). -/
def exGood : State :=
  [(['g', 'y', 'm'], ⟨5, 9, 1234, .Pending⟩),
   (['r', 'u', 'n'], ⟨0, 3, -7, .Expired⟩)]

/-- A store whose single streak name `"a\nb"` contains a newline but no
comma. -/
def exBad : State := [(['a', '\n', 'b'], ⟨3, 4, 5, .Done⟩)]

/-! ### Recurrence and congruence lemmas for the fuelled functions -/

theorem levRefAux_nil (fuel : Nat) (a : List Nat) : levRefAux fuel a [] = a.length := by
  cases fuel <;> cases a <;> rfl

theorem levRefAux_nil_cons (fuel y : Nat) (bs : List Nat) :
    levRefAux fuel [] (y :: bs) = bs.length + 1 := by
  cases fuel <;> rfl

theorem levRefAux_succ_cons (fuel' x y : Nat) (as_ bs : List Nat) :
    levRefAux (fuel' + 1) (x :: as_) (y :: bs) =
      min (1 + levRefAux fuel' as_ (y :: bs))
        (min (1 + levRefAux fuel' (x :: as_) bs)
          ((if x = y then 0 else 1) + levRefAux fuel' as_ bs)) := rfl

theorem levAux_nil (fuel : Nat) (a : List Nat) : levAux fuel a [] = some a.length := by
  cases fuel <;> cases a <;> rfl

theorem levAux_nil_cons (fuel y : Nat) (bs : List Nat) :
    levAux fuel [] (y :: bs) = some (bs.length + 1) := by
  cases fuel <;> rfl

theorem levAux_succ_cons (fuel' x y : Nat) (as_ bs : List Nat) :
    levAux (fuel' + 1) (x :: as_) (y :: bs) =
      (if 128 ≤ x ∨ 128 ≤ y then none
       else if x = y then levAux fuel' as_ bs
       else do
        let d1 ← levAux fuel' as_ (y :: bs)
        let d2 ← levAux fuel' (x :: as_) bs
        let d3 ← levAux fuel' as_ bs
        some (1 + min (min d1 d2) d3)) := rfl


theorem levRefAux_congr : ∀ f1 f2 a b, a.length + b.length ≤ f1 →
    a.length + b.length ≤ f2 → levRefAux f1 a b = levRefAux f2 a b := by
  intro f1
  induction f1 using Nat.strong_induction_on with
  | _ f1 ih =>
    intro f2 a b h1 h2
    cases b with
    | nil => rw [levRefAux_nil, levRefAux_nil]
    | cons y bs =>
      cases a with
      | nil => rw [levRefAux_nil_cons, levRefAux_nil_cons]
      | cons x as_ =>
        simp only [List.length_cons] at h1 h2
        cases f1 with
        | zero => omega
        | succ f1' =>
          cases f2 with
          | zero => omega
          | succ f2' =>
            rw [levRefAux_succ_cons, levRefAux_succ_cons,
                ih f1' (by omega) f2' as_ (y :: bs)
                  (by simp only [List.length_cons]; omega)
                  (by simp only [List.length_cons]; omega),
                ih f1' (by omega) f2' (x :: as_) bs
                  (by simp only [List.length_cons]; omega)
                  (by simp only [List.length_cons]; omega),
                ih f1' (by omega) f2' as_ bs (by omega) (by omega)]

theorem levRef_nil (a : List Nat) : levRef a [] = a.length := by
  unfold levRef; rw [levRefAux_nil]

theorem levRef_nil_cons (y : Nat) (bs : List Nat) :
    levRef [] (y :: bs) = bs.length + 1 := by
  unfold levRef; rw [levRefAux_nil_cons]

theorem levRef_cons_cons (x y : Nat) (as_ bs : List Nat) :
    levRef (x :: as_) (y :: bs) =
      min (1 + levRef as_ (y :: bs))
        (min (1 + levRef (x :: as_) bs)
          ((if x = y then 0 else 1) + levRef as_ bs)) := by
  show levRefAux ((x :: as_).length + (y :: bs).length) _ _ = _
  have hlen : (x :: as_).length + (y :: bs).length = (as_.length + bs.length + 1) + 1 := by
    simp only [List.length_cons]; omega
  rw [hlen, levRefAux_succ_cons]
  unfold levRef
  rw [levRefAux_congr (as_.length + bs.length + 1) (as_.length + (y :: bs).length) as_ (y :: bs)
        (by simp only [List.length_cons]; omega) (Nat.le_refl _),
      levRefAux_congr (as_.length + bs.length + 1) ((x :: as_).length + bs.length) (x :: as_) bs
        (by simp only [List.length_cons]; omega) (Nat.le_refl _),
      levRefAux_congr (as_.length + bs.length + 1) (as_.length + bs.length) as_ bs
        (by omega) (Nat.le_refl _)]


theorem levRef_nil_left (b : List Nat) : levRef [] b = b.length := by
  cases b with
  | nil => rw [levRef_nil]
  | cons z bs => rw [levRef_nil_cons]; simp only [List.length_cons]

theorem le_one_add_min3 (v t1 t2 t3 : Nat) (h1 : v ≤ 1 + t1) (h2 : v ≤ 1 + t2)
    (h3 : v ≤ 1 + t3) : v ≤ 1 + min t1 (min t2 t3) := by
  rcases min_choice t1 (min t2 t3) with hc | hc <;> rw [hc]
  · exact h1
  · rcases min_choice t2 t3 with hd | hd <;> rw [hd]
    · exact h2
    · exact h3

theorem levRef_cons_left_le (x : Nat) (a b : List Nat) :
    levRef (x :: a) b ≤ 1 + levRef a b := by
  cases b with
  | nil => rw [levRef_nil, levRef_nil]; simp only [List.length_cons]; omega
  | cons y bs =>
    rw [levRef_cons_cons]
    calc min _ _ ≤ 1 + levRef a (y :: bs) := Nat.min_le_left _ _
      _ = 1 + levRef a (y :: bs) := rfl

theorem levRef_cons_right_le (y : Nat) (a b : List Nat) :
    levRef a (y :: b) ≤ 1 + levRef a b := by
  cases a with
  | nil => rw [levRef_nil_cons, levRef_nil_left]; omega
  | cons x as_ =>
    rw [levRef_cons_cons]
    calc min _ _ ≤ min (1 + levRef (x :: as_) b)
          ((if x = y then 0 else 1) + levRef as_ b) := Nat.min_le_right _ _
      _ ≤ 1 + levRef (x :: as_) b := Nat.min_le_left _ _

theorem levRef_le_cons : ∀ n a b (y : Nat), a.length + b.length ≤ n →
    levRef a b ≤ 1 + levRef a (y :: b) ∧ levRef a b ≤ 1 + levRef (y :: a) b := by
  intro n
  induction n using Nat.strong_induction_on with
  | _ n ih =>
    intro a b y hlen
    cases a with
    | nil =>
      constructor
      · rw [levRef_nil_left, levRef_nil_cons]; omega
      · cases b with
        | nil =>
          rw [levRef_nil_left, levRef_nil]
          simp only [List.length_nil, List.length_cons]; omega
        | cons z bs =>
          simp only [List.length_nil, List.length_cons] at hlen
          have h2 := (ih bs.length (by omega) [] bs y (by simp)).2
          rw [levRef_nil_left] at h2
          rw [levRef_nil_left, levRef_cons_cons y z [] bs]
          apply le_one_add_min3
          · rw [levRef_nil_cons]; simp only [List.length_cons]; omega
          · simp only [List.length_cons]; omega
          · rw [levRef_nil_left]; simp only [List.length_cons]; split <;> omega
    | cons x as_ =>
      cases b with
      | nil =>
        simp only [List.length_nil, List.length_cons] at hlen
        constructor
        · have h1 := (ih as_.length (by omega) as_ [] y (by simp)).1
          rw [levRef_nil] at h1
          rw [levRef_nil, levRef_cons_cons x y as_ []]
          apply le_one_add_min3
          · simp only [List.length_cons]; omega
          · rw [levRef_nil]; simp only [List.length_cons]; omega
          · rw [levRef_nil]; simp only [List.length_cons]; split <;> omega
        · rw [levRef_nil, levRef_nil]; simp only [List.length_cons]; omega
      | cons z bs =>
        simp only [List.length_cons] at hlen
        have hE1 : levRef (x :: as_) (z :: bs) ≤ 1 + levRef as_ (z :: bs) :=
          levRef_cons_left_le x as_ (z :: bs)
        have hE2 : levRef (x :: as_) (z :: bs) ≤ 1 + levRef (x :: as_) bs :=
          levRef_cons_right_le z (x :: as_) bs
        have ih1 := (ih (as_.length + (z :: bs).length)
          (by simp only [List.length_cons]; omega) as_ (z :: bs) y (Nat.le_refl _)).1
        have ih2 := (ih ((x :: as_).length + bs.length)
          (by simp only [List.length_cons]; omega) (x :: as_) bs y (Nat.le_refl _)).2
        constructor
        · rw [levRef_cons_cons x y as_ (z :: bs)]
          apply le_one_add_min3
          · omega
          · omega
          · split <;> omega
        · rw [levRef_cons_cons y z (x :: as_) bs]
          apply le_one_add_min3
          · omega
          · omega
          · split <;> omega


theorem levAux_congr : ∀ f1 f2 a b, a.length + b.length ≤ f1 →
    a.length + b.length ≤ f2 → levAux f1 a b = levAux f2 a b := by
  intro f1
  induction f1 using Nat.strong_induction_on with
  | _ f1 ih =>
    intro f2 a b h1 h2
    cases b with
    | nil => rw [levAux_nil, levAux_nil]
    | cons y bs =>
      cases a with
      | nil => rw [levAux_nil_cons, levAux_nil_cons]
      | cons x as_ =>
        simp only [List.length_cons] at h1 h2
        cases f1 with
        | zero => omega
        | succ f1' =>
          cases f2 with
          | zero => omega
          | succ f2' =>
            rw [levAux_succ_cons, levAux_succ_cons,
                ih f1' (by omega) f2' as_ (y :: bs)
                  (by simp only [List.length_cons]; omega)
                  (by simp only [List.length_cons]; omega),
                ih f1' (by omega) f2' (x :: as_) bs
                  (by simp only [List.length_cons]; omega)
                  (by simp only [List.length_cons]; omega),
                ih f1' (by omega) f2' as_ bs (by omega) (by omega)]

theorem lev_nil (a : List Nat) : lev a [] = some a.length := by
  unfold lev; rw [levAux_nil]

theorem lev_nil_cons (y : Nat) (bs : List Nat) :
    lev [] (y :: bs) = some (bs.length + 1) := by
  unfold lev; rw [levAux_nil_cons]

theorem lev_cons_cons (x y : Nat) (as_ bs : List Nat) :
    lev (x :: as_) (y :: bs) =
      (if 128 ≤ x ∨ 128 ≤ y then none
       else if x = y then lev as_ bs
       else do
        let d1 ← lev as_ (y :: bs)
        let d2 ← lev (x :: as_) bs
        let d3 ← lev as_ bs
        some (1 + min (min d1 d2) d3)) := by
  show levAux ((x :: as_).length + (y :: bs).length) _ _ = _
  have hlen : (x :: as_).length + (y :: bs).length = (as_.length + bs.length + 1) + 1 := by
    simp only [List.length_cons]; omega
  rw [hlen, levAux_succ_cons]
  unfold lev
  rw [levAux_congr (as_.length + bs.length + 1) (as_.length + (y :: bs).length) as_ (y :: bs)
        (by simp only [List.length_cons]; omega) (Nat.le_refl _),
      levAux_congr (as_.length + bs.length + 1) ((x :: as_).length + bs.length) (x :: as_) bs
        (by simp only [List.length_cons]; omega) (Nat.le_refl _),
      levAux_congr (as_.length + bs.length + 1) (as_.length + bs.length) as_ bs
        (by omega) (Nat.le_refl _)]

theorem lev_ascii_aux : ∀ n a b, a.length + b.length ≤ n → allAscii a → allAscii b →
    lev a b = some (levRef a b) := by
  intro n
  induction n using Nat.strong_induction_on with
  | _ n ih =>
    intro a b hlen ha hb
    cases b with
    | nil => rw [lev_nil, levRef_nil]
    | cons y bs =>
      cases a with
      | nil => rw [lev_nil_cons, levRef_nil_cons]
      | cons x as_ =>
        simp only [List.length_cons] at hlen
        have hx : x < 128 := ha x (List.mem_cons_self x as_)
        have hy : y < 128 := hb y (List.mem_cons_self y bs)
        have ha' : allAscii as_ := fun c hc => ha c (List.mem_cons_of_mem x hc)
        have hb' : allAscii bs := fun c hc => hb c (List.mem_cons_of_mem y hc)
        rw [lev_cons_cons, if_neg (by omega)]
        by_cases hxy : x = y
        · rw [if_pos hxy, ih (as_.length + bs.length) (by omega) as_ bs (Nat.le_refl _) ha' hb']
          subst hxy
          have t1 := (levRef_le_cons (as_.length + (x :: bs).length) as_ bs x
            (by simp only [List.length_cons]; omega)).1
          have t2 := (levRef_le_cons (as_.length + (x :: bs).length) as_ bs x
            (by simp only [List.length_cons]; omega)).2
          have : levRef (x :: as_) (x :: bs) = levRef as_ bs := by
            rw [levRef_cons_cons, if_pos rfl]
            omega
          rw [this]
        · rw [if_neg hxy,
              ih (as_.length + (y :: bs).length) (by simp only [List.length_cons]; omega)
                as_ (y :: bs) (Nat.le_refl _) ha' hb,
              ih ((x :: as_).length + bs.length) (by simp only [List.length_cons]; omega)
                (x :: as_) bs (Nat.le_refl _) ha hb',
              ih (as_.length + bs.length) (by omega) as_ bs (Nat.le_refl _) ha' hb']
          have hrhs : levRef (x :: as_) (y :: bs) =
              min (1 + levRef as_ (y :: bs))
                (min (1 + levRef (x :: as_) bs) (1 + levRef as_ bs)) := by
            rw [levRef_cons_cons, if_neg hxy]
          rw [hrhs]
          show some (1 + min (min (levRef as_ (y :: bs)) (levRef (x :: as_) bs)) (levRef as_ bs)) = _
          congr 1
          omega

/-! ### Lemmas for fuzzy resolution over an iteration order -/

theorem close_match_ascii (a b : List Nat) (ha : allAscii a) (hb : allAscii b) :
    close_match a b =
      some (decide (levRef a b ≤ min (min a.length b.length / 2) 3)) := by
  unfold close_match
  rw [lev_ascii_aux (a.length + b.length) a b (Nat.le_refl _) ha hb]
  rfl

theorem findClose_eq_find? (keys : List (List Nat)) (q : List Nat)
    (hk : ∀ k ∈ keys, allAscii k) (hq : allAscii q) :
    findClose keys q =
      some (keys.find? fun k => decide (close_match k q = some true)) := by
  induction keys with
  | nil => rfl
  | cons k ks ih =>
    have hck := close_match_ascii k q (hk k (List.mem_cons_self k ks)) hq
    have ih' := ih (fun c hc => hk c (List.mem_cons_of_mem k hc))
    by_cases hb : levRef k q ≤ min (min k.length q.length / 2) 3
    · have hsome : close_match k q = some true := by rw [hck, decide_eq_true hb]
      unfold findClose
      rw [hsome, List.find?_cons_of_pos _ (by rw [hsome]; simp)]
    · have hsome : close_match k q = some false := by rw [hck, decide_eq_false hb]
      unfold findClose
      rw [hsome, List.find?_cons_of_neg _ (by rw [hsome]; simp), ih']

theorem find?_eq_head?_filter {α : Type} (p : α → Bool) :
    ∀ l : List α, l.find? p = (l.filter p).head? := by
  intro l
  induction l with
  | nil => rfl
  | cons x xs ih =>
    by_cases hx : p x
    · rw [List.find?_cons_of_pos _ hx, List.filter_cons_of_pos hx]; rfl
    · rw [List.find?_cons_of_neg _ (by simpa using hx),
          List.filter_cons_of_neg (by simpa using hx), ih]

theorem perm_eq_of_length_le_one {α : Type} {l l' : List α}
    (hp : l.Perm l') (hl : l.length ≤ 1) : l = l' := by
  cases l with
  | nil => exact (hp.nil_eq).symm ▸ rfl
  | cons x xs =>
    cases xs with
    | nil => exact List.singleton_perm.mp hp
    | cons y ys => simp at hl

/-! ### Lemmas for the decimal codecs -/

theorem digitChar_toNat (d : Nat) (hd : d < 10) : (digitChar d).toNat = 48 + d := by
  interval_cases d <;> decide

theorem isDigitChar_digitChar (d : Nat) (hd : d < 10) :
    isDigitChar (digitChar d) = true := by
  interval_cases d <;> decide

theorem readNat_append_digit (cs : List Char) (c : Char) :
    readNat (cs ++ [c]) = 10 * readNat cs + (c.toNat - 48) := by
  unfold readNat
  rw [List.foldl_append]
  rfl

theorem natToCharsAux_spec : ∀ fuel n, n < fuel →
    natToCharsAux fuel n ≠ [] ∧
      (∀ c ∈ natToCharsAux fuel n, isDigitChar c = true) ∧
      readNat (natToCharsAux fuel n) = n := by
  intro fuel
  induction fuel using Nat.strong_induction_on with
  | _ fuel ih =>
    intro n hn
    cases fuel with
    | zero => omega
    | succ f =>
      by_cases h10 : n < 10
      · unfold natToCharsAux
        rw [if_pos h10]
        refine ⟨by simp, ?_, ?_⟩
        · intro c hc
          simp only [List.mem_singleton] at hc
          subst hc
          exact isDigitChar_digitChar n h10
        · show readNat ([] ++ [digitChar n]) = n
          rw [readNat_append_digit]
          have := digitChar_toNat n h10
          unfold readNat
          simp only [List.foldl_nil]
          omega
      · unfold natToCharsAux
        rw [if_neg h10]
        have hdiv : n / 10 < f := by omega
        obtain ⟨hne, hdig, hread⟩ := ih f (by omega) (n / 10) hdiv
        refine ⟨by simp, ?_, ?_⟩
        · intro c hc
          rw [List.mem_append] at hc
          rcases hc with hc | hc
          · exact hdig c hc
          · simp only [List.mem_singleton] at hc
            subst hc
            exact isDigitChar_digitChar (n % 10) (Nat.mod_lt n (by omega))
        · rw [readNat_append_digit, hread,
              digitChar_toNat (n % 10) (Nat.mod_lt n (by omega))]
          omega

theorem natToChars_spec (n : Nat) :
    natToChars n ≠ [] ∧ (∀ c ∈ natToChars n, isDigitChar c = true) ∧
      readNat (natToChars n) = n :=
  natToCharsAux_spec (n + 1) n (Nat.lt_succ_self n)

theorem isDigitChar_toNat_range (c : Char) (h : isDigitChar c = true) :
    48 ≤ c.toNat ∧ c.toNat ≤ 57 := by
  unfold isDigitChar at h
  simp only [Bool.and_eq_true, decide_eq_true_eq] at h
  omega

theorem digit_ne_comma (c : Char) (h : isDigitChar c = true) : c ≠ ',' := by
  intro he
  subst he
  simp [isDigitChar] at h

theorem digit_ne_newline (c : Char) (h : isDigitChar c = true) : c ≠ '\n' := by
  intro he
  subst he
  simp [isDigitChar] at h

theorem digit_ne_plus (c : Char) (h : isDigitChar c = true) : c ≠ '+' := by
  intro he
  subst he
  simp [isDigitChar] at h

theorem digit_ne_minus (c : Char) (h : isDigitChar c = true) : c ≠ '-' := by
  intro he
  subst he
  simp [isDigitChar] at h

theorem parseU32_natToChars (n : Nat) (hn : n < 2 ^ 32) :
    parseU32 (natToChars n) = some n := by
  obtain ⟨hne, hdig, hread⟩ := natToChars_spec n
  unfold parseU32
  cases hcs : natToChars n with
  | nil => exact absurd hcs hne
  | cons c rest =>
    have hc : isDigitChar c = true := by
      apply hdig
      rw [hcs]
      exact List.mem_cons_self c rest
    simp only [if_neg (digit_ne_plus c hc)]
    rw [if_pos, if_pos]
    · rw [← hcs, hread]
    · rw [← hcs, hread]
      exact hn
    · constructor
      · simp
      · rw [← hcs]
        rw [List.all_eq_true]
        exact hdig

theorem parseTime_serializeTime (t : Int) : parseTime (serializeTime t) = some t := by
  obtain ⟨hne, hdig, hread⟩ := natToChars_spec t.natAbs
  unfold serializeTime
  by_cases ht : t < 0
  · rw [if_pos ht]
    simp only [parseTime]
    rw [if_pos trivial, if_pos]
    · rw [hread]
      congr 1
      omega
    · constructor
      · exact hne
      · rw [List.all_eq_true]
        exact hdig
  · rw [if_neg ht]
    cases hcs : natToChars t.natAbs with
    | nil => exact absurd hcs hne
    | cons c rest =>
      have hc : isDigitChar c = true := by
        apply hdig
        rw [hcs]
        exact List.mem_cons_self c rest
      simp only [parseTime]
      rw [if_neg (digit_ne_minus c hc), if_pos]
      · rw [← hcs, hread]
        congr 1
        omega
      · rw [← hcs, List.all_eq_true]
        exact hdig

theorem serializeTime_chars (t : Int) :
    ∀ c ∈ serializeTime t, c ≠ ',' ∧ c ≠ '\n' := by
  intro c hc
  obtain ⟨hne, hdig, hread⟩ := natToChars_spec t.natAbs
  unfold serializeTime at hc
  by_cases ht : t < 0
  · rw [if_pos ht] at hc
    rcases List.mem_cons.mp hc with hc | hc
    · subst hc
      exact ⟨by decide, by decide⟩
    · exact ⟨digit_ne_comma c (hdig c hc), digit_ne_newline c (hdig c hc)⟩
  · rw [if_neg ht] at hc
    exact ⟨digit_ne_comma c (hdig c hc), digit_ne_newline c (hdig c hc)⟩

theorem natToChars_chars (n : Nat) :
    ∀ c ∈ natToChars n, c ≠ ',' ∧ c ≠ '\n' := by
  intro c hc
  obtain ⟨hne, hdig, hread⟩ := natToChars_spec n
  exact ⟨digit_ne_comma c (hdig c hc), digit_ne_newline c (hdig c hc)⟩

/-! ### Lemmas for line and field splitting -/

theorem splitOnChar_cons (sep c : Char) (cs : List Char) :
    splitOnChar sep (c :: cs) =
      match splitOnChar sep cs with
      | [] => [[]]
      | r :: rs => if c = sep then [] :: r :: rs else (c :: r) :: rs := rfl

theorem splitOnChar_ne_nil (sep : Char) (l : List Char) : splitOnChar sep l ≠ [] := by
  cases l with
  | nil => simp [splitOnChar]
  | cons c cs =>
    rw [splitOnChar_cons]
    cases h : splitOnChar sep cs with
    | nil => simp
    | cons r rs =>
      show (if c = sep then [] :: r :: rs else (c :: r) :: rs) ≠ []
      by_cases hc : c = sep
      · rw [if_pos hc]; simp
      · rw [if_neg hc]; simp

theorem splitOnChar_no_sep (sep : Char) (l : List Char) (h : sep ∉ l) :
    splitOnChar sep l = [l] := by
  induction l with
  | nil => rfl
  | cons c cs ih =>
    have hc : c ≠ sep := fun he => h (he ▸ List.mem_cons_self c cs)
    have hcs : sep ∉ cs := fun hm => h (List.mem_cons_of_mem c hm)
    rw [splitOnChar_cons, ih hcs]
    show (if c = sep then [] :: cs :: [] else (c :: cs) :: []) = [c :: cs]
    rw [if_neg hc]

theorem splitOnChar_append (sep : Char) (p t : List Char) (hp : sep ∉ p) :
    splitOnChar sep (p ++ sep :: t) = p :: splitOnChar sep t := by
  induction p with
  | nil =>
    show splitOnChar sep (sep :: t) = [] :: splitOnChar sep t
    rw [splitOnChar_cons]
    cases h : splitOnChar sep t with
    | nil => exact absurd h (splitOnChar_ne_nil sep t)
    | cons r rs =>
      show (if sep = sep then [] :: r :: rs else (sep :: r) :: rs) = [] :: r :: rs
      rw [if_pos rfl]
  | cons c cs ih =>
    have hc : c ≠ sep := fun he => hp (he ▸ List.mem_cons_self c cs)
    have hcs : sep ∉ cs := fun hm => hp (List.mem_cons_of_mem c hm)
    show splitOnChar sep (c :: (cs ++ sep :: t)) = (c :: cs) :: splitOnChar sep t
    rw [splitOnChar_cons, ih hcs]
    show (if c = sep then [] :: cs :: splitOnChar sep t
          else (c :: cs) :: splitOnChar sep t) = (c :: cs) :: splitOnChar sep t
    rw [if_neg hc]

theorem splitOnChar_joinSep (sep : Char) :
    ∀ parts : List (List Char), parts ≠ [] → (∀ p ∈ parts, sep ∉ p) →
      splitOnChar sep (joinSep sep parts) = parts := by
  intro parts
  induction parts with
  | nil => intro h; exact absurd rfl h
  | cons p ps ih =>
    intro _ hsep
    cases ps with
    | nil =>
      show splitOnChar sep p = [p]
      exact splitOnChar_no_sep sep p (hsep p (List.mem_cons_self p []))
    | cons q qs =>
      show splitOnChar sep (p ++ sep :: joinSep sep (q :: qs)) = p :: q :: qs
      rw [splitOnChar_append sep p _ (hsep p (List.mem_cons_self p (q :: qs)))]
      rw [ih (by simp) (fun r hr => hsep r (List.mem_cons_of_mem p hr))]

theorem joinSep_ne_nil (sep : Char) (l : List Char) (ls : List (List Char))
    (hl : l ≠ []) : joinSep sep (l :: ls) ≠ [] := by
  cases ls with
  | nil => exact hl
  | cons q qs =>
    show l ++ sep :: joinSep sep (q :: qs) ≠ []
    simp

theorem stripCR_id (l : List Char) (h : l.getLast? ≠ some '\x0d') : stripCR l = l := by
  unfold stripCR
  rw [if_neg h]

theorem rustLines_joinSep (lines : List (List Char))
    (h : ∀ l ∈ lines, ('\n') ∉ l ∧ l ≠ [] ∧ l.getLast? ≠ some '\x0d') :
    rustLines (joinSep '\n' lines) = lines := by
  cases lines with
  | nil => rfl
  | cons l ls =>
    have hl := h l (List.mem_cons_self l ls)
    unfold rustLines
    rw [if_neg (joinSep_ne_nil _ l ls hl.2.1)]
    rw [splitOnChar_joinSep _ (l :: ls) (by simp) (fun p hp => (h p hp).1)]
    have hlast : (l :: ls).getLast? ≠ some [] := by
      rw [List.getLast?_eq_getLast _ (by simp)]
      intro hc
      simp only [Option.some.injEq] at hc
      have := List.getLast_mem (l := l :: ls) (by simp)
      rw [hc] at this
      exact (h [] this).2.1 rfl
    rw [if_neg hlast]
    have hid : ∀ x ∈ l :: ls, stripCR x = x := fun x hx => stripCR_id x (h x hx).2.2
    calc (l :: ls).map stripCR = (l :: ls).map id := List.map_congr_left hid
      _ = l :: ls := List.map_id _

/-! ### The serialize/deserialize round trip -/

theorem state_serialize_chars (st : StreakState) :
    ∀ c ∈ st.serialize, c ≠ ',' ∧ c ≠ '\n' := by
  cases st <;> decide

theorem state_serialize_ne_nil (st : StreakState) : st.serialize ≠ [] := by
  cases st <;> decide

theorem state_serialize_getLast (st : StreakState) :
    st.serialize.getLast? ≠ some '\x0d' := by
  cases st <;> decide

theorem state_deserialize_serialize (st : StreakState) :
    StreakState.deserialize st.serialize = some st := by
  cases st <;> decide

theorem getLast?_chain (l t : List Char) (c : Char) (ht : t ≠ []) :
    (l ++ c :: t).getLast? = t.getLast? := by
  cases t with
  | nil => exact absurd rfl ht
  | cons u us => rw [List.getLast?_append_cons, List.getLast?_cons_cons]

theorem streak_deserialize_serialize (s : Streak)
    (hc : s.current_count < 2 ^ 32) (hm : s.max_count < 2 ^ 32) :
    Streak.deserialize
      [natToChars s.current_count, natToChars s.max_count,
       serializeTime s.last_hit, StreakState.serialize s.state] = some s := by
  show (parseU32 (natToChars s.current_count)).bind _ = some s
  rw [parseU32_natToChars _ hc]
  show (parseU32 (natToChars s.max_count)).bind _ = some s
  rw [parseU32_natToChars _ hm]
  show (parseTime (serializeTime s.last_hit)).bind _ = some s
  rw [parseTime_serializeTime]
  show (StreakState.deserialize s.state.serialize).map _ = some s
  rw [state_deserialize_serialize]
  rfl

theorem splitOnChar_lineOf (n : List Char) (s : Streak) (hn : (',') ∉ n) :
    splitOnChar ',' (lineOf (n, s)) =
      [n, natToChars s.current_count, natToChars s.max_count,
       serializeTime s.last_hit, StreakState.serialize s.state] := by
  unfold lineOf Streak.serialize
  dsimp only
  rw [splitOnChar_append _ _ _ hn,
      splitOnChar_append _ _ _ (fun hm => (natToChars_chars _ ',' hm).1 rfl),
      splitOnChar_append _ _ _ (fun hm => (natToChars_chars _ ',' hm).1 rfl),
      splitOnChar_append _ _ _ (fun hm => (serializeTime_chars _ ',' hm).1 rfl),
      splitOnChar_no_sep _ _ (fun hm => (state_serialize_chars s.state ',' hm).1 rfl)]

theorem lineOf_no_newline (n : List Char) (s : Streak) (hn : ('\n') ∉ n) :
    ('\n') ∉ lineOf (n, s) := by
  intro hmem
  unfold lineOf Streak.serialize at hmem
  dsimp only at hmem
  rcases List.mem_append.mp hmem with h | h
  · exact hn h
  · rcases List.mem_cons.mp h with h | h
    · exact absurd h (by decide)
    · rcases List.mem_append.mp h with h | h
      · exact (natToChars_chars _ _ h).2 rfl
      · rcases List.mem_cons.mp h with h | h
        · exact absurd h (by decide)
        · rcases List.mem_append.mp h with h | h
          · exact (natToChars_chars _ _ h).2 rfl
          · rcases List.mem_cons.mp h with h | h
            · exact absurd h (by decide)
            · rcases List.mem_append.mp h with h | h
              · exact (serializeTime_chars _ _ h).2 rfl
              · rcases List.mem_cons.mp h with h | h
                · exact absurd h (by decide)
                · exact (state_serialize_chars s.state _ h).2 rfl

theorem lineOf_ne_nil (n : List Char) (s : Streak) : lineOf (n, s) ≠ [] := by
  unfold lineOf
  cases n <;> simp

theorem lineOf_getLast (n : List Char) (s : Streak) :
    (lineOf (n, s)).getLast? ≠ some '\x0d' := by
  unfold lineOf Streak.serialize
  dsimp only
  rw [getLast?_chain _ _ _ (by simp),
      getLast?_chain _ _ _ (by simp),
      getLast?_chain _ _ _ (by simp),
      getLast?_chain _ _ _ (state_serialize_ne_nil s.state)]
  exact state_serialize_getLast s.state

theorem insertReplace_eq_append (acc : State) (n : List Char) (s : Streak)
    (h : ∀ q ∈ acc, q.1 ≠ n) : insertReplace acc n s = acc ++ [(n, s)] := by
  induction acc with
  | nil => rfl
  | cons q rest ih =>
    obtain ⟨m, t⟩ := q
    show (if m = n then (m, s) :: rest else (m, t) :: insertReplace rest n s) = _
    rw [if_neg (h (m, t) (List.mem_cons_self _ _)), 
        ih (fun r hr => h r (List.mem_cons_of_mem _ hr))]
    rfl

theorem deserializeLines_map_lineOf :
    ∀ (l acc : State),
      (∀ p ∈ l, (',') ∉ p.1 ∧ p.2.current_count < 2 ^ 32 ∧ p.2.max_count < 2 ^ 32) →
      (∀ p ∈ l, ∀ q ∈ acc, q.1 ≠ p.1) →
      (l.map Prod.fst).Nodup →
      deserializeLines (l.map lineOf) acc = some (acc ++ l) := by
  intro l
  induction l with
  | nil => intro acc _ _ _; simp [deserializeLines]
  | cons p rest ih =>
    intro acc hwf hdisj hnodup
    obtain ⟨n, s⟩ := p
    have hp := hwf (n, s) (List.mem_cons_self _ _)
    have hsplit := splitOnChar_lineOf n s hp.1
    have hdes := streak_deserialize_serialize s hp.2.1 hp.2.2
    show deserializeLines (lineOf (n, s) :: rest.map lineOf) acc = _
    unfold deserializeLines
    rw [hsplit]
    show (match Streak.deserialize
        [natToChars s.current_count, natToChars s.max_count,
         serializeTime s.last_hit, StreakState.serialize s.state] with
      | none => none
      | some s' => deserializeLines (rest.map lineOf) (insertReplace acc n s')) = _
    rw [hdes]
    show deserializeLines (rest.map lineOf) (insertReplace acc n s) = _
    rw [insertReplace_eq_append acc n s (fun q hq => hdisj (n, s) (List.mem_cons_self _ _) q hq)]
    rw [ih (acc ++ [(n, s)])
        (fun q hq => hwf q (List.mem_cons_of_mem _ hq))
        ?_ (by simp only [List.map_cons, List.nodup_cons] at hnodup; exact hnodup.2)]
    · simp
    · intro q hq r hr
      rcases List.mem_append.mp hr with hr | hr
      · exact hdisj q (List.mem_cons_of_mem _ hq) r hr
      · simp only [List.mem_singleton] at hr
        subst hr
        simp only [List.map_cons, List.nodup_cons] at hnodup
        intro he
        exact hnodup.1 (List.mem_map.mpr ⟨q, hq, he.symm⟩)

theorem lookupName_perm {l l' : State} (hp : l.Perm l')
    (hnd : (l.map Prod.fst).Nodup) (n : List Char) :
    lookupName n l = lookupName n l' := by
  induction hp with
  | nil => rfl
  | cons x h ih =>
    obtain ⟨m, s⟩ := x
    show (if m = n then some s else _) = (if m = n then some s else _)
    by_cases hm : m = n
    · rw [if_pos hm, if_pos hm]
    · rw [if_neg hm, if_neg hm]
      exact ih (by simp only [List.map_cons, List.nodup_cons] at hnd; exact hnd.2)
  | swap x y l =>
    obtain ⟨m1, s1⟩ := x
    obtain ⟨m2, s2⟩ := y
    simp only [List.map_cons, List.nodup_cons, List.mem_cons] at hnd
    have hne : m2 ≠ m1 := fun he => hnd.1 (Or.inl he)
    show (if m2 = n then some s2 else if m1 = n then some s1 else lookupName n l) =
      (if m1 = n then some s1 else if m2 = n then some s2 else lookupName n l)
    split_ifs with hA hB
    · exact absurd (hA.trans hB.symm) hne
    · rfl
    · rfl
    · rfl
  | trans h1 h2 ih1 ih2 =>
    rw [ih1 hnd, ih2 (((h1.map Prod.fst).nodup_iff).mp hnd)]

theorem sortStreaks_perm (st : State) : (sortStreaks st).Perm st :=
  List.perm_insertionSort _ st

theorem State_WF_roundtrip (st : State) (hwf : State.WF st)
    (hnames : ∀ p ∈ st, (',') ∉ p.1 ∧ ('\n') ∉ p.1) :
    State.deserialize (State.serialize st) = some (sortStreaks st) := by
  obtain ⟨hnodup, hcounts⟩ := hwf
  have hperm := sortStreaks_perm st
  have hnodup' : ((sortStreaks st).map Prod.fst).Nodup :=
    ((hperm.map Prod.fst).nodup_iff).mpr hnodup
  have hmem : ∀ p ∈ sortStreaks st, p ∈ st := fun p hp => hperm.mem_iff.mp hp
  unfold State.serialize State.deserialize
  rw [rustLines_joinSep ((sortStreaks st).map lineOf) ?_]
  · rw [deserializeLines_map_lineOf (sortStreaks st) []
        (fun p hp => ⟨(hnames p (hmem p hp)).1, (hcounts p (hmem p hp)).1,
          (hcounts p (hmem p hp)).2⟩)
        (fun p _ q hq => absurd hq (List.not_mem_nil q)) hnodup']
    rw [List.nil_append]
  · intro l hl
    rw [List.mem_map] at hl
    obtain ⟨p, hp, hlp⟩ := hl
    obtain ⟨n, s⟩ := p
    subst hlp
    exact ⟨lineOf_no_newline n s (hnames (n, s) (hmem (n, s) hp)).2,
      lineOf_ne_nil n s, lineOf_getLast n s⟩

/-! ### Lemmas for the state machine -/

theorem advance_last_hit (s : Streak) (d : Int) :
    (s.advance d).1.last_hit = s.last_hit := by
  unfold Streak.advance Streak.update_count
  split_ifs <;> rfl

theorem advance_advance (s : Streak) (d : Int) :
    ((s.advance d).1.advance d).1 = (s.advance d).1 := by
  by_cases h0 : d = 0
  · simp [Streak.advance, h0]
  · by_cases h1 : d = 1
    · simp [Streak.advance, h0, h1]
    · by_cases h2 : 1 < d
      · simp [Streak.advance, Streak.update_count, h0, h1, h2]
      · simp [Streak.advance, Streak.update_count, h0, h1, h2]

theorem hit_pending_eq (s : Streak) (now : Int) (hs : s.state = .Pending) :
    s.hit now = (some (s.current_count + 1),
      { s with state := .Done, last_hit := now,
               current_count := s.current_count + 1,
               max_count := max s.max_count (s.current_count + 1) }) := by
  unfold Streak.hit
  rw [hs]
  rfl

theorem hit_fresh_eq (s : Streak) (now : Int)
    (hs : s.state = .New ∨ s.state = .Expired) :
    s.hit now = (some 1,
      { s with state := .Done, last_hit := now, current_count := 1,
               max_count := max s.max_count 1 }) := by
  unfold Streak.hit
  rcases hs with hs | hs <;> rw [hs] <;> rfl

theorem hit_done_eq (s : Streak) (now : Int) (hs : s.state = .Done) :
    s.hit now = (none, s) := by
  unfold Streak.hit
  rw [hs]

/-! ### Claim theorems -/

/-- Claim C1 (corrected: the names must also contain no newline).  For
every well-formed store whose streak names contain no comma and no
newline, serializing and then deserializing succeeds and reproduces an
identical store: every name looks up to the same streak (same
`current_count`, `max_count`, `last_hit` and `state`). -/
theorem serialize_deserialize_roundtrip (st : State) (hwf : State.WF st)
    (hnames : ∀ p ∈ st, (',') ∉ p.1 ∧ ('\n') ∉ p.1) :
    ∃ st', State.deserialize (State.serialize st) = some st' ∧
      ∀ n, lookupName n st' = lookupName n st := by
  refine ⟨sortStreaks st, State_WF_roundtrip st hwf hnames, fun n => ?_⟩
  exact lookupName_perm (sortStreaks_perm st)
    (((sortStreaks_perm st).map Prod.fst).nodup_iff.mpr hwf.1) n

/-- Witness for C1 at a concrete two-streak store. -/
theorem serialize_deserialize_roundtrip_witness :
    State.WF exGood ∧ (∀ p ∈ exGood, (',') ∉ p.1 ∧ ('\n') ∉ p.1) ∧
      ∃ st', State.deserialize (State.serialize exGood) = some st' ∧
        ∀ n, lookupName n st' = lookupName n exGood :=
  ⟨by decide, by decide,
    serialize_deserialize_roundtrip exGood (by decide) (by decide)⟩

/-- Counterexample to C1 as stated: the store `exBad` has a single
streak whose name `"a\nb"` contains no comma, yet deserializing its
serialization fails (the newline in the name breaks the line structure). -/
theorem roundtrip_fails_newline_name :
    (∀ p ∈ exBad, (',') ∉ p.1) ∧ State.WF exBad ∧
      State.deserialize (State.serialize exBad) = none :=
  ⟨by decide, by decide, by decide⟩

/-- Claim C2.  `hit` in state `Pending` sets the status to `Done`,
increments `current_count` by exactly 1, recomputes `max_count`, sets
`last_hit` to the current time, and returns the new count; `hit` in
state `New` or `Expired` sets the status to `Done`, sets
`current_count` to exactly 1 regardless of the prior count, recomputes
`max_count`, sets `last_hit` to the current time, and returns the new
count. -/
theorem hit_transitions (s : Streak) (now : Int) :
    (s.state = .Pending →
      s.hit now = (some (s.current_count + 1),
        { s with state := .Done, last_hit := now,
                 current_count := s.current_count + 1,
                 max_count := max s.max_count (s.current_count + 1) })) ∧
    (s.state = .New ∨ s.state = .Expired →
      s.hit now = (some 1,
        { s with state := .Done, last_hit := now, current_count := 1,
                 max_count := max s.max_count 1 })) :=
  ⟨hit_pending_eq s now, hit_fresh_eq s now⟩

/-- Witness for C2: a `Pending` streak at count 5 hit at time 7 reaches
count 6, and an `Expired` streak at count 5 hit at time 7 restarts at
count 1. -/
theorem hit_transitions_witness :
    Streak.hit ⟨5, 9, 100, .Pending⟩ 7 = (some 6, ⟨6, 9, 7, .Done⟩) ∧
    Streak.hit ⟨5, 9, 100, .Expired⟩ 7 = (some 1, ⟨1, 9, 7, .Done⟩) := by
  constructor
  · rw [(hit_transitions ⟨5, 9, 100, .Pending⟩ 7).1 rfl]
    decide
  · rw [(hit_transitions ⟨5, 9, 100, .Expired⟩ 7).2 (Or.inr rfl)]
    decide

/-- Claim C3.  `hit` in state `Done` changes nothing — the streak is
returned unmodified — and the result is `none` (no update). -/
theorem hit_done_noop (s : Streak) (now : Int) (h : s.state = .Done) :
    s.hit now = (none, s) :=
  hit_done_eq s now h

/-- Witness for C3 at a concrete `Done` streak. -/
theorem hit_done_noop_witness :
    (⟨6, 6, 3, .Done⟩ : Streak).state = .Done ∧
      Streak.hit ⟨6, 6, 3, .Done⟩ 9 = (none, ⟨6, 6, 3, .Done⟩) :=
  ⟨rfl, hit_done_noop ⟨6, 6, 3, .Done⟩ 9 rfl⟩

/-- Claim C4.  Reconciliation advances every streak of the store by the
day delta `numDaysFromCE now - numDaysFromCE lastHit`; a delta of 0
changes nothing, a delta of exactly 1 sets the status to `Pending`
without changing the counts, a delta greater than 1 sets the status to
`Expired` and resets `current_count` to 0 while preserving `max_count`,
and in no case does the advance change `last_hit`. -/
theorem update_day_delta_cases (st : State) (now : Int) (n : List Char)
    (s : Streak) (hmem : (n, s) ∈ st) :
    ((n, (s.advance (numDaysFromCE now - numDaysFromCE s.last_hit)).1)
       ∈ st.update now) ∧
    (∀ d : Int,
      (s.advance d).1.last_hit = s.last_hit ∧
      (d = 0 → (s.advance d).1 = s) ∧
      (d = 1 → (s.advance d).1 = { s with state := .Pending }) ∧
      (1 < d → (s.advance d).1 =
        { s with state := .Expired, current_count := 0 })) := by
  constructor
  · exact List.mem_map_of_mem _ hmem
  · intro d
    refine ⟨advance_last_hit s d, ?_, ?_, ?_⟩
    · intro h0
      simp [Streak.advance, h0]
    · intro h1
      simp [Streak.advance, h1]
    · intro h2
      have h0 : d ≠ 0 := by omega
      have h1 : d ≠ 1 := by omega
      simp [Streak.advance, Streak.update_count, h0, h1, h2]

/-- Witness for C4: the `Pending` streak `"gym"` of `exGood`, advanced
by 2 days, expires with its count reset to 0. -/
theorem update_day_delta_cases_witness :
    ((⟨5, 9, 1234, .Pending⟩ : Streak).advance 2).1 =
      { (⟨5, 9, 1234, .Pending⟩ : Streak) with
          state := .Expired, current_count := 0 } := by
  have h := update_day_delta_cases exGood 0 ['g', 'y', 'm']
    ⟨5, 9, 1234, .Pending⟩ (by decide)
  exact (h.2 2).2.2.2 (by decide)

/-- Claim C5.  A negative day delta (clock moved backward or corrupted
timestamp) does not fail: `advance` is total there, defensively sets
the status to `Pending` with `current_count` reset to 0 (preserving
`max_count` and `last_hit`), and raises the `"corrupted time state"`
warning (the `true` flag). -/
theorem advance_negative_delta_defensive (s : Streak) (d : Int) (h : d < 0) :
    s.advance d = ({ s with state := .Pending, current_count := 0 }, true) := by
  have h0 : d ≠ 0 := by omega
  have h1 : d ≠ 1 := by omega
  have h2 : ¬ 1 < d := by omega
  simp [Streak.advance, Streak.update_count, h0, h1, h2]

/-- Witness for C5 at a concrete streak and delta `-3`. -/
theorem advance_negative_delta_defensive_witness :
    ((-3 : Int) < 0) ∧
      Streak.advance ⟨5, 9, 1234, .Done⟩ (-3) =
        ({ (⟨5, 9, 1234, .Done⟩ : Streak) with
            state := .Pending, current_count := 0 }, true) :=
  ⟨by decide, advance_negative_delta_defensive ⟨5, 9, 1234, .Done⟩ (-3) (by decide)⟩

/-- Claim C6.  Reconciliation is idempotent within a calendar day:
running `State.update` a second time at any time of the same calendar
day (in particular with the same `now`) changes nothing further,
because the first pass never changes `last_hit`, so the day delta
recomputes to the same value. -/
theorem update_idempotent_same_day (st : State) (t1 t2 : Int)
    (h : numDaysFromCE t1 = numDaysFromCE t2) :
    (st.update t1).update t2 = st.update t1 := by
  unfold State.update
  rw [List.map_map]
  apply List.map_congr_left
  intro p _
  simp only [Function.comp_apply]
  rw [advance_last_hit, ← h, advance_advance]

/-- Witness for C6: updating the concrete store twice at two times of
calendar day 0 equals updating it once. -/
theorem update_idempotent_same_day_witness :
    numDaysFromCE 100 = numDaysFromCE 200 ∧
      (exGood.update 100).update 200 = exGood.update 100 :=
  ⟨by decide, update_idempotent_same_day exGood 100 200 (by decide)⟩

/-- Claim C7.  The invariant `current_count ≤ max_count` holds for a
newly created streak and is preserved by `hit` and by reconciliation's
`advance`. -/
theorem count_le_max_invariant (t now d : Int) (s : Streak) :
    (Streak.new t).current_count ≤ (Streak.new t).max_count ∧
    (s.current_count ≤ s.max_count →
      ((s.hit now).2.current_count ≤ (s.hit now).2.max_count ∧
       (s.advance d).1.current_count ≤ (s.advance d).1.max_count)) := by
  refine ⟨Nat.le_refl 0, fun hinv => ⟨?_, ?_⟩⟩
  · cases hst : s.state
    · rw [hit_done_eq s now hst]
      exact hinv
    · rw [hit_pending_eq s now hst]
      exact Nat.le_max_right _ _
    · rw [hit_fresh_eq s now (Or.inr hst)]
      exact Nat.le_max_right _ _
    · rw [hit_fresh_eq s now (Or.inl hst)]
      exact Nat.le_max_right _ _
  · by_cases h0 : d = 0
    · simpa [Streak.advance, h0] using hinv
    · by_cases h1 : d = 1
      · simpa [Streak.advance, h1] using hinv
      · by_cases h2 : 1 < d
        · simp [Streak.advance, Streak.update_count, h0, h1, h2]
        · simp [Streak.advance, Streak.update_count, h0, h1, h2]

/-- Witness for C7: hitting a `Pending` streak with count 3 and max 5
keeps the invariant. -/
theorem count_le_max_invariant_witness :
    ((3 : Nat) ≤ 5) ∧
      (Streak.hit ⟨3, 5, 9, .Pending⟩ 11).2.current_count ≤
        (Streak.hit ⟨3, 5, 9, .Pending⟩ 11).2.max_count :=
  ⟨by decide, ((count_le_max_invariant 0 11 2 ⟨3, 5, 9, .Pending⟩).2 (by decide)).1⟩

/-- Claim C8 (corrected: restricted to ASCII strings, since on
non-ASCII input `close_match` panics instead of returning a Boolean).
For ASCII byte strings, `close_match a b` holds iff the Levenshtein
distance between `a` and `b` is at most
`min (min (len a) (len b) / 2) 3`; in particular
`close_match "workout" "workuot"` is true and `close_match "ab" "xy"`
is false. -/
theorem close_match_ascii_iff :
    (∀ a b : List Nat, allAscii a → allAscii b →
      (close_match a b = some true ↔
        levRef a b ≤ min (min a.length b.length / 2) 3)) ∧
    close_match workoutBytes workuotBytes = some true ∧
    close_match abBytes xyBytes = some false := by
  refine ⟨fun a b ha hb => ?_, by decide, by decide⟩
  rw [close_match_ascii a b ha hb]
  constructor
  · intro h
    exact of_decide_eq_true (Option.some.inj h)
  · intro h
    rw [decide_eq_true h]

/-- Witness for C8 at the concrete ASCII strings `"ab"` and `"xy"`. -/
theorem close_match_ascii_iff_witness :
    (allAscii abBytes ∧ allAscii xyBytes) ∧
      (close_match abBytes xyBytes = some true ↔
        levRef abBytes xyBytes ≤
          min (min abBytes.length xyBytes.length / 2) 3) :=
  ⟨⟨by decide, by decide⟩,
    close_match_ascii_iff.1 abBytes xyBytes (by decide) (by decide)⟩

/-- Counterexample to C8 as stated over every pair of strings: for the
two-byte UTF-8 string `"é"` compared with itself the distance bound
holds (the distance is 0) but `close_match` panics (returns no
Boolean), so the biconditional fails. -/
theorem close_match_multibyte_cex :
    ¬ (close_match eAcuteBytes eAcuteBytes = some true ↔
        levRef eAcuteBytes eAcuteBytes ≤
          min (min eAcuteBytes.length eAcuteBytes.length / 2) 3) := by
  decide

/-- Claim C9 (corrected: the `HashMap` key iteration that feeds the
fuzzy suggestion is not name-sorted and its order is unspecified, so
cross-run determinism holds only when at most one stored name is a
close match).  The suggestion is the first matching key in the
iteration order actually used, and when at most one key matches, every
iteration order of the same key set yields the same suggestion. -/
theorem fuzzy_resolution_order :
    (∀ (keys : List (List Nat)) (q : List Nat),
      (∀ k ∈ keys, allAscii k) → allAscii q →
      findClose keys q =
        some (keys.find? fun k => decide (close_match k q = some true))) ∧
    (∀ (keys keys' : List (List Nat)) (q : List Nat),
      keys.Perm keys' → (∀ k ∈ keys, allAscii k) → allAscii q →
      keys.countP (fun k => decide (close_match k q = some true)) ≤ 1 →
      findClose keys q = findClose keys' q) := by
  refine ⟨findClose_eq_find?, fun keys keys' q hp hk hq hcount => ?_⟩
  rw [findClose_eq_find? keys q hk hq,
      findClose_eq_find? keys' q (fun k hk' => hk k (hp.mem_iff.mpr hk')) hq,
      find?_eq_head?_filter, find?_eq_head?_filter]
  rw [perm_eq_of_length_le_one (hp.filter _)
    (by rw [← List.countP_eq_length_filter]; exact hcount)]

/-- Witness for C9: over the store `{"xy", "ab"}` queried with `"ac"`,
only `"ab"` is a close match, so both iteration orders suggest it. -/
theorem fuzzy_resolution_order_witness :
    findClose [xyBytes, abBytes] acBytes = findClose [abBytes, xyBytes] acBytes :=
  fuzzy_resolution_order.2 [xyBytes, abBytes] [abBytes, xyBytes] acBytes
    (by decide) (by decide) (by decide) (by decide)

/-- Counterexample to C9 as stated: `"ab"` and `"ad"` are both close
matches of the query `"ac"`; the two iteration orders of the same
two-key store suggest different names, so the suggestion is not
determined by the name-sorted order and two runs can disagree. -/
theorem fuzzy_resolution_nondeterministic :
    ([adBytes, abBytes].Perm [abBytes, adBytes]) ∧
      findClose [abBytes, adBytes] acBytes = some (some abBytes) ∧
      findClose [adBytes, abBytes] acBytes = some (some adBytes) ∧
      adBytes ≠ abBytes :=
  ⟨by decide, by decide, by decide, by decide⟩

/-- Claim C10.  `lev` compares first characters but recurses on byte
slices: on ASCII strings it is total and computes the Levenshtein
distance, while slicing a multi-byte first character panics — e.g.
`lev "é" "a"` (bytes `[195, 169]` against `[97]`). -/
theorem lev_ascii_total_multibyte_panics :
    (∀ a b : List Nat, allAscii a → allAscii b →
      lev a b = some (levRef a b)) ∧
    lev eAcuteBytes aBytes = none :=
  ⟨fun a b ha hb => lev_ascii_aux (a.length + b.length) a b (Nat.le_refl _) ha hb,
   by decide⟩

/-- Witness for C10 at the concrete ASCII strings `"workout"` and
`"workuot"`. -/
theorem lev_ascii_total_multibyte_panics_witness :
    (allAscii workoutBytes ∧ allAscii workuotBytes) ∧
      lev workoutBytes workuotBytes = some (levRef workoutBytes workuotBytes) :=
  ⟨⟨by decide, by decide⟩,
    lev_ascii_total_multibyte_panics.1 workoutBytes workuotBytes
      (by decide) (by decide)⟩

end Streaks
